import Mathlib

/-!
Verification of the Carnister metadata-resolution pipeline (src/src/main.rs).

Strings are embedded as `List Char`; Rust byte indices coincide with
character positions on the inputs considered (all operations used by the
source split at character boundaries, so the char-level model is faithful).
Machine integers (`i32`) are embedded as `Int` with explicit range checks
where the source parses them.  Interactive input is embedded as explicit
input streams; network calls are embedded as oracle streams.
-/

namespace Carnister

open scoped List

/-- Whitespace predicate used by Rust's `str::trim` (ASCII part). -/
def wsChar (c : Char) : Bool :=
  c = ' ' || c = '\t' || c = '\n' || c = '\r'

/-- Drop trailing characters satisfying `wsChar`. -/
def dropTrailingWs (l : List Char) : List Char :=
  (l.reverse.dropWhile wsChar).reverse

/-- Rust `str::trim`: drop leading and trailing whitespace. -/
def rustTrim (l : List Char) : List Char :=
  dropTrailingWs (l.dropWhile wsChar)

/-- Is `pat` a leading segment of `l`?  (Rust `str::starts_with`.) -/
def isPreList : List Char → List Char → Bool
  | [], _ => true
  | _ :: _, [] => false
  | p :: ps, c :: cs => p = c && isPreList ps cs

/-- Does `l` contain `pat` as a contiguous segment?  (Rust `str::contains`.) -/
def containsSub (pat : List Char) : List Char → Bool
  | [] => isPreList pat []
  | c :: cs => isPreList pat (c :: cs) || containsSub pat cs

/-- The characters before the first occurrence of `pat` (all of `l` if absent). -/
def beforeFirst (pat : List Char) : List Char → List Char
  | [] => []
  | c :: cs => if isPreList pat (c :: cs) then [] else c :: beforeFirst pat cs

/-- The characters after the first occurrence of `pat` (`[]` if absent). -/
def afterFirst (pat : List Char) : List Char → List Char
  | [] => []
  | c :: cs => if isPreList pat (c :: cs) then (c :: cs).drop pat.length
               else afterFirst pat cs

/-- ASCII lowercasing, as used by Rust `str::to_lowercase` on the inputs involved. -/
def charLower (c : Char) : Char :=
  if 'A' ≤ c ∧ c ≤ 'Z' then Char.ofNat (c.toNat + 32) else c

/-- Accumulator loop for decimal digits; `none` on the first non-digit. -/
def digitsToNatAux : Nat → List Char → Option Nat
  | acc, [] => some acc
  | acc, c :: cs =>
    if c.isDigit then digitsToNatAux (acc * 10 + (c.toNat - 48)) cs else none

/-- Digits of a decimal numeral; `none` if empty or any char is not a digit. -/
def digitsToNat : List Char → Option Nat
  | [] => none
  | l => digitsToNatAux 0 l

/-- Rust `str::parse::<i32>()`: optional sign, one or more digits, `i32` range check. -/
def parseI32 (l : List Char) : Option Int :=
  match l with
  | '+' :: rest =>
    (digitsToNat rest).bind fun n =>
      if n ≤ 2147483647 then some (n : Int) else none
  | '-' :: rest =>
    (digitsToNat rest).bind fun n =>
      if n ≤ 2147483648 then some (-(n : Int)) else none
  | _ =>
    (digitsToNat l).bind fun n =>
      if n ≤ 2147483647 then some (n : Int) else none

/-! ## Normalizer: `clean_artist` and `clean_title` (main.rs lines 886-913) -/

theorem length_dropWhile_le (p : Char → Bool) (l : List Char) :
    (l.dropWhile p).length ≤ l.length := by
  induction l with
  | nil => simp [List.dropWhile]
  | cons c cs ih =>
    cases h : p c
    · simp [List.dropWhile, h]
    · simp [List.dropWhile, h]; omega

theorem dropWhileDropLe (p : Char → Bool) (l : List Char) (n : Nat) :
    ((l.dropWhile p).drop n).length ≤ l.length := by
  have h1 := length_dropWhile_le p l
  rw [List.length_drop]; omega

/-- Model of `Regex::new(r"\[.*?\]").replace_all(input, "")`: each lazy match runs from a
`[` to the first following `]`; a `[` with no later `]` never matches. -/
def removeBrackets : List Char → List Char
  | [] => []
  | c :: rest =>
    if c = '[' ∧ ']' ∈ rest then
      removeBrackets ((rest.dropWhile (· ≠ ']')).drop 1)
    else
      c :: removeBrackets rest
termination_by l => l.length
decreasing_by
  all_goals simp only [List.length_cons]
  all_goals first
    | exact Nat.lt_succ_of_le (dropWhileDropLe _ _ _)
    | exact Nat.lt_succ_of_le (length_dropWhile_le _ _)
    | omega

/-- The keyword test of `clean_title`'s parenthesis closure: the whole lazy match
(lowercased) must contain `"remix"`, `"edit"` or `"vip"` to be kept. -/
def kwSpan (span : List Char) : Bool :=
  let low := span.map charLower
  containsSub ['r', 'e', 'm', 'i', 'x'] low ||
  containsSub ['e', 'd', 'i', 't'] low ||
  containsSub ['v', 'i', 'p'] low

/-- Model of `Regex::new(r"\([^)]*\)").replace_all(..)` with the remix/edit/vip closure:
each match runs from a `(` to the first following `)`; kept verbatim iff the
lowercased match contains a keyword, deleted otherwise. -/
def removeParens : List Char → List Char
  | [] => []
  | c :: rest =>
    if c = '(' ∧ ')' ∈ rest then
      if kwSpan ('(' :: rest.takeWhile (· ≠ ')') ++ [')']) then
        ('(' :: rest.takeWhile (· ≠ ')') ++ [')']) ++
          removeParens ((rest.dropWhile (· ≠ ')')).drop 1)
      else
        removeParens ((rest.dropWhile (· ≠ ')')).drop 1)
    else
      c :: removeParens rest
termination_by l => l.length
decreasing_by
  all_goals simp only [List.length_cons]
  all_goals first
    | exact Nat.lt_succ_of_le (dropWhileDropLe _ _ _)
    | exact Nat.lt_succ_of_le (length_dropWhile_le _ _)
    | omega

/-- Model of `Regex::new(r"\|.*").replace_all(..)`: the dot does not match a newline, so each
match deletes from a `|` up to (excluding) the next newline or the end. -/
def removePipes : List Char → List Char
  | [] => []
  | c :: rest =>
    if c = '|' then removePipes (rest.dropWhile (· ≠ '\n'))
    else c :: removePipes rest
termination_by l => l.length
decreasing_by
  all_goals simp only [List.length_cons]
  all_goals first
    | exact Nat.lt_succ_of_le (dropWhileDropLe _ _ _)
    | exact Nat.lt_succ_of_le (length_dropWhile_le _ _)
    | omega

/-- Model of `temp.replace("\"", "")`. -/
def removeQuotes (l : List Char) : List Char :=
  l.filter (· ≠ '"')

/-- Function `clean_title` (main.rs lines 895-913): brackets, then the parenthesis
closure, then `|.*`, then stray quotes, then trim. -/
def clean_title (input : List Char) : List Char :=
  rustTrim (removeQuotes (removePipes (removeParens (removeBrackets input))))

/-- Function `clean_artist` (main.rs lines 886-893): brackets removed and trimmed; then
`temp.find("-").or(temp.find("|"))` picks an index and `split_off(index)` keeps
the characters from that index on (separator included); then trim. -/
def clean_artist (input : List Char) : List Char :=
  let temp := rustTrim (removeBrackets input)
  let temp :=
    match (temp.findIdx? (· = '-')).orElse (fun _ => temp.findIdx? (· = '|')) with
    | some i => temp.drop i
    | none => temp
  rustTrim temp

/-! ## Ingestion-time title normalization (main.rs lines 142-149) -/

/-- The literal separator `" - "`. -/
def sepDash : List Char := [' ', '-', ' ']

theorem isPreList_length_le {pat l : List Char} (h : isPreList pat l = true) :
    pat.length ≤ l.length := by
  induction pat generalizing l with
  | nil => simp
  | cons p ps ih =>
    cases l with
    | nil => simp [isPreList] at h
    | cons c cs =>
      simp only [isPreList, Bool.and_eq_true] at h
      have := ih h.2
      simp only [List.length_cons]
      omega

theorem afterFirst_length_lt (l : List Char)
    (h : containsSub sepDash l = true) :
    (afterFirst sepDash l).length < l.length := by
  induction l with
  | nil => simp [containsSub, isPreList] at h
  | cons c cs ih =>
    by_cases hp : isPreList sepDash (c :: cs) = true
    · have hlen := isPreList_length_le hp
      simp only [afterFirst, hp, if_pos]
      simp only [List.length_drop, List.length_cons] at hlen ⊢
      simp only [sepDash, List.length_cons, List.length_nil] at hlen ⊢
      omega
    · simp only [containsSub, Bool.or_eq_true] at h
      rcases h with h | h
      · exact absurd h hp
      · have := ih h
        simp only [afterFirst, hp, if_neg, if_false, List.length_cons]
        simp only [Bool.not_eq_true] at hp
        simp [hp]
        omega

/-- Rust `str::split(" - ")`: split at every leftmost non-overlapping occurrence. -/
def splitDash (l : List Char) : List (List Char) :=
  if containsSub sepDash l then
    beforeFirst sepDash l :: splitDash (afterFirst sepDash l)
  else [l]
termination_by l.length
decreasing_by
  rename_i h
  exact afterFirst_length_lt l h

/-- Model of `upload_channel.replace(" - Topic", "")`. -/
def stripTopic : List Char → List Char
  | [] => []
  | c :: rest =>
    if isPreList [' ', '-', ' ', 'T', 'o', 'p', 'i', 'c'] (c :: rest) then
      stripTopic ((c :: rest).drop 8)
    else c :: stripTopic rest
termination_by l => l.length
decreasing_by
  all_goals simp only [List.length_cons, List.length_drop]
  all_goals omega

/-- Lines 142-149 of `main`: with a `" - "` separator the raw title is split on
every occurrence and elements `[0]` and `[1]` are cleaned; otherwise the
channel (with `" - Topic"` removed) provides the artist. Returns
`(artist, title)`. -/
def ingestSplit (raw_title upload_channel : List Char) : List Char × List Char :=
  if ¬ (containsSub sepDash raw_title = true) then
    (clean_artist (stripTopic upload_channel), clean_title raw_title)
  else
    let split_title := splitDash raw_title
    (clean_artist (split_title.getD 0 []), clean_title (split_title.getD 1 []))

/-! ## Data model: `Song` (main.rs lines 19-27) -/

structure Song where
  artist : List Char
  title : List Char
  release_year : Int
  youtube_year : Int
  video_id : List Char
  raw_title : List Char
  detected_title : Option (List Char)
deriving DecidableEq, Repr

/-- The `Song` pushed onto `skipped` when the resolver fails during ingestion
(main.rs line 157): `release_year` and `youtube_year` are both the upload
year, `detected_title` is `None`. -/
def mkSkippedSong (artist title : List Char) (upload_date : Int)
    (id raw_title : List Char) : Song :=
  { artist := artist, title := title, release_year := upload_date,
    youtube_year := upload_date, video_id := id, raw_title := raw_title,
    detected_title := none }

/-! ## Loading a song list from file (main.rs lines 253-268, 481-489) -/

/-- Rust `str::split(ch)`: `n` separators yield `n + 1` (possibly empty) parts. -/
def splitOnChar (sep : Char) : List Char → List (List Char)
  | [] => [[]]
  | c :: rest =>
    match splitOnChar sep rest with
    | [] => [[]]
    | p :: ps => if c = sep then [] :: p :: ps else (c :: p) :: ps

/-- The unit separator `char::from(31)` used by the persistence format. -/
def unitSep : Char := Char.ofNat 31

/-- Function `parse_option_string` (main.rs lines 481-489).  The slice `input[6..len-2]`
panics when the trimmed `Some(..)` shell leaves fewer than 8 characters
(`.error`); otherwise it drops `Some(` plus one char and `)` plus one char,
matching the `{:?}`-printed form `Some("inner")`. -/
def parse_option_string (input : List Char) : Except (List Char) (Option (List Char)) :=
  if isPreList ['S', 'o', 'm', 'e', '('] input ∧ input.getLast? = some ')' then
    if input.length < 8 then .error input
    else .ok (some ((input.drop 6).take (input.length - 8)))
  else
    .ok none

/-- The file-loading loop (main.rs lines 253-268): a line with a field count
other than 7 is skipped (`continue`); otherwise the two year fields go through
`parse::<i32>().unwrap()` — a failed parse panics and aborts the whole load,
modelled by `.error`. -/
def loadSongs : List (List Char) → Except (List Char) (List Song)
  | [] => .ok []
  | line :: rest =>
    let parts := splitOnChar unitSep line
    if parts.length ≠ 7 then loadSongs rest
    else
      match parseI32 (parts.getD 2 []), parseI32 (parts.getD 3 []) with
      | some ry, some yy =>
        match parse_option_string (parts.getD 6 []) with
        | .error e => .error e
        | .ok dt =>
          (loadSongs rest).map
            (fun songs =>
              { artist := parts.getD 0 [], title := parts.getD 1 [],
                release_year := ry, youtube_year := yy,
                video_id := parts.getD 4 [], raw_title := parts.getD 5 [],
                detected_title := dt } :: songs)
      | _, _ => .error line

/-! ## Review pass over the unresolved queue (main.rs lines 174-225)

Interactive numeric input is a stream of integers (`input_num` discards
out-of-range entries and returns the first valid one); `custom_query` is an
oracle stream: `none` is a failed or abandoned query (`Err`, the loop
re-enters), `some (year, detected)` is an accepted result which assigns
`release_year` and `detected_title` (main.rs lines 585-586).  The
`action_for_all` flag starts at `-1`; menu display and `input_num` only happen
while it is `-1`.  The returned `Nat` counts menus shown. -/

def intMin : Int := -2147483648
def intMax : Int := 2147483647

/-- Model of `input_num(lo, hi)`: read from the stream until a value in range. -/
def inputNum (lo hi : Int) : List Int → Option (Int × List Int)
  | [] => none
  | x :: rest => if lo ≤ x ∧ x ≤ hi then some (x, rest) else inputNum lo hi rest

structure RevEnv where
  nums : List Int
  cq : List (Option (Int × List Char))
deriving DecidableEq, Repr

mutual

/-- One entry's inner `loop` (main.rs lines 180-224), fuelled.  Returns the
decided song, the updated `action_for_all`, the remaining streams and the
number of menus shown. -/
def reviewSong : Nat → Int → RevEnv → Song → Option (Song × Int × RevEnv × Nat)
  | 0, _, _, _ => none
  | Nat.succ fuel, afa, env, song =>
    if afa = -1 then
      match inputNum 1 5 env.nums with
      | none => none
      | some (i, ns) =>
        let afa' := if i = 4 then 1 else if i = 5 then 2 else afa
        let inp := if afa' ≠ -1 then afa' else i
        (reviewAct fuel afa' { env with nums := ns } song inp).map
          (fun r => (r.1, r.2.1, r.2.2.1, r.2.2.2 + 1))
    else
      reviewAct fuel afa env song afa
termination_by fuel => 2 * fuel

/-- The `match input` arms (main.rs lines 208-221): `1` keeps the song as
created (fallback year already in place), `2` prompts for a year, `3` runs
`custom_query` and on failure re-enters the loop; any other value aborts. -/
def reviewAct (fuel : Nat) (afa : Int) (env : RevEnv) (song : Song) :
    Int → Option (Song × Int × RevEnv × Nat)
  | 1 => some (song, afa, env, 0)
  | 2 =>
    match inputNum intMin intMax env.nums with
    | none => none
    | some (y, ns) => some ({ song with release_year := y }, afa, { env with nums := ns }, 0)
  | 3 =>
    match env.cq with
    | [] => none
    | none :: rest => reviewSong fuel afa { env with cq := rest } song
    | some (y, dt) :: rest =>
      some ({ song with release_year := y, detected_title := some dt }, afa,
            { env with cq := rest }, 0)
  | _ => none
termination_by 2 * fuel + 1

end

/-- The `for song in skipped.iter_mut()` pass (main.rs line 179). -/
def reviewPass (fuel : Nat) : Int → RevEnv → List Song →
    Option (List Song × Int × RevEnv × Nat)
  | afa, env, [] => some ([], afa, env, 0)
  | afa, env, s :: rest =>
    match reviewSong fuel afa env s with
    | none => none
    | some (s', afa', env', p) =>
      match reviewPass fuel afa' env' rest with
      | none => none
      | some (rest', afa2, env2, p2) => some (s' :: rest', afa2, env2, p + p2)

/-! ## Catalog browser (main.rs lines 274-368)

State is the song list, the current `page` and `elements_per_page` (both
`u32`, embedded as `Nat`).  One outer-loop iteration consumes one input line;
edits inside the selection menu consume from the same streams as the review
pass plus a string stream for artist/title text. -/

structure BrowseState where
  songs : List Song
  page : Nat
  eps : Nat
deriving DecidableEq, Repr

structure BrowseEnv where
  nums : List Int
  strs : List (List Char)
  cq : List (Option (Int × List Char))
deriving DecidableEq, Repr

/-- Return value of `draw_table` (main.rs line 608): how many of the
`elements_per_page` slots starting at `page * elements_per_page` hold a song. -/
def elementsDisplayed (st : BrowseState) : Nat :=
  ((List.range st.eps).filter (fun i => i + st.page * st.eps < st.songs.length)).length

/-- Model of `f32::ceil(songs.len() / elements_per_page) as u32` (main.rs line 277),
exact for the list sizes in scope. -/
def pageCount (st : BrowseState) : Nat :=
  (st.songs.length + st.eps - 1) / st.eps

inductive BrowseInput where
  | num (n : Nat)
  | a
  | d
  | plus
  | minus
  | done
  | other
deriving DecidableEq, Repr

/-- The selection inner `loop` (main.rs lines 294-343).  The out-of-range test
is re-evaluated at the top of every iteration, exactly as in the source; both
it and action `6` exit via `continue 'outer`, yielding the current state. -/
def selectLoop : Nat → Nat → Nat → BrowseEnv → BrowseState →
    Option (BrowseState × BrowseEnv)
  | 0, _, _, _, _ => none
  | Nat.succ fuel, num, dispCount, env, st =>
    if num > min dispCount st.eps ∨ num < 1 then some (st, env)
    else
      let idx := (num - 1) + st.page * st.eps
      match inputNum 1 6 env.nums with
      | none => none
      | some (act, ns) =>
        let env := { env with nums := ns }
        match st.songs.get? idx with
        | none => none
        | some sel =>
          if act = 1 then
            match env.cq with
            | [] => none
            | none :: rest => selectLoop fuel num dispCount { env with cq := rest } st
            | some (y, dt) :: rest =>
              let sel' := { sel with release_year := y, detected_title := some dt }
              selectLoop fuel num dispCount { env with cq := rest }
                { st with songs := st.songs.set idx sel' }
          else if act = 2 then
            match env.strs with
            | [] => none
            | s :: srest =>
              selectLoop fuel num dispCount { env with strs := srest }
                { st with songs := st.songs.set idx { sel with artist := s } }
          else if act = 3 then
            match env.strs with
            | [] => none
            | s :: srest =>
              selectLoop fuel num dispCount { env with strs := srest }
                { st with songs := st.songs.set idx { sel with title := s } }
          else if act = 4 then
            match inputNum intMin intMax env.nums with
            | none => none
            | some (y, ns2) =>
              selectLoop fuel num dispCount { env with nums := ns2 }
                { st with songs := st.songs.set idx { sel with release_year := y } }
          else if act = 5 then
            selectLoop fuel num dispCount env
              { st with songs := st.songs.set idx { sel with release_year := sel.youtube_year } }
          else
            some (st, env)

/-- One iteration of the outer browser loop (main.rs lines 276-368) for a
given input token.  `elements_displayed` is computed by `draw_table` before
the input is read. -/
def browseIter (fuel : Nat) (env : BrowseEnv) (st : BrowseState) :
    BrowseInput → Option (BrowseState × BrowseEnv)
  | .num n => selectLoop fuel n (elementsDisplayed st) env st
  | .a => some ({ st with page := st.page - 1 }, env)
  | .d =>
    some (if st.page < pageCount st - 1 then { st with page := st.page + 1 } else st, env)
  | .plus => some ({ st with eps := st.eps + 10 }, env)
  | .minus =>
    some (if st.eps > 10 then { st with eps := st.eps - 10 } else st, env)
  | .done => some (st, env)
  | .other => some (st, env)

/-! ## Recording resolver: `get_music_braiz_results` (main.rs lines 804-861)

The JSON response is embedded as a list of records per the Collaborator B
interface: `first-release-date` (`none` ↔ JSON null), the artist-credit name
list, the recording title, and the optional disambiguation text.  Outcomes
distinguish the normal error return (`errNotFound`) from a panic. -/

structure Recording where
  firstReleaseDate : Option (List Char)
  artistCredit : List (List Char)
  title : List Char
  disambiguation : Option (List Char)
deriving DecidableEq, Repr

inductive MBOutcome where
  | ok (rs : List (Int × List Char × Option (List Char)))
  | errNotFound
  | panicked
deriving DecidableEq, Repr

/-- Rust `str::split_once("-")`. -/
def splitOnceDash (l : List Char) : Option (List Char × List Char) :=
  if '-' ∈ l then some (l.takeWhile (· ≠ '-'), (l.dropWhile (· ≠ '-')).drop 1)
  else none

/-- Model of `artists.iter().fold("", |a, b| a + ", " + b).split_off(2)`:
the fold prepends `", "` before every name and `split_off(2)` drops the first
two characters — which panics (`none`) when the artist list is empty. -/
def joinArtists (names : List (List Char)) : Option (List Char) :=
  match names with
  | [] => none
  | _ => some ((names.foldl (fun a b => a ++ [',', ' '] ++ b) []).drop 2)

/-- Model of `detected_title.replace("’", "'")`. -/
def replaceCurly (l : List Char) : List Char :=
  l.map (fun c => if c = '’' then '\'' else c)

/-- Model of `Value::to_string()` applied to a JSON string: it re-quotes it (main.rs line 849);
escaping inside is not exercised by the claims. -/
def quoteWrap (l : List Char) : List Char :=
  '"' :: l ++ ['"']

/-- One loop body iteration (main.rs lines 819-855): `some none` is a
`continue` (null or unparseable date), `none` is a panic, `some (some r)`
pushes `r`.  `ft` is `json["recordings"][0]["title"]`. -/
def processRecording (ft : List Char) (r : Recording) :
    Option (Option (Int × List Char × Option (List Char))) :=
  match r.firstReleaseDate with
  | none => some none
  | some raw =>
    let date? := match splitOnceDash raw with
      | some (y, _) => parseI32 y
      | none => parseI32 raw
    match date? with
    | none => some none
    | some d =>
      match joinArtists r.artistCredit with
      | none => none
      | some joined =>
        let dt := replaceCurly (joined ++ sepDash ++ ft)
        some (some (d, dt, r.disambiguation.map quoteWrap))

def processAll (ft : List Char) :
    List Recording → Option (List (Int × List Char × Option (List Char)))
  | [] => some []
  | r :: rest =>
    match processRecording ft r with
    | none => none
    | some none => processAll ft rest
    | some (some x) => (processAll ft rest).map (x :: ·)

/-- Lexicographic order used by `Vec::sort` on `(i32, String, Option<String>)`:
integer order, then byte-wise string order, then `None < Some` with string
order. -/
def resLe (x y : Int × List Char × Option (List Char)) : Bool :=
  if x.1 ≠ y.1 then x.1 ≤ y.1
  else if x.2.1 ≠ y.2.1 then decide (x.2.1 < y.2.1)
  else match x.2.2, y.2.2 with
    | none, _ => true
    | some _, none => false
    | some a, some b => a ≤ b

/-- Stable insertion sort, the behavioural model of `results.sort()`. -/
def insertRes (x : Int × List Char × Option (List Char)) :
    List (Int × List Char × Option (List Char)) →
    List (Int × List Char × Option (List Char))
  | [] => [x]
  | y :: ys => if resLe x y then x :: y :: ys else y :: insertRes x ys

def sortResults : List (Int × List Char × Option (List Char)) →
    List (Int × List Char × Option (List Char))
  | [] => []
  | x :: xs => insertRes x (sortResults xs)

/-- Function `get_music_braiz_results` (main.rs lines 804-861).  An empty raw array is
the normal `Err` return; after filtering, the `info!` call indexes
`results[0]`, which panics when every candidate was dropped. -/
def get_music_braiz_results (recordings : List Recording) : MBOutcome :=
  if recordings.length = 0 then .errNotFound
  else
    let ft := (recordings.headD ⟨none, [], [], none⟩).title
    match processAll ft recordings with
    | none => .panicked
    | some results =>
      if results.isEmpty then .panicked
      else .ok (sortResults results)

/-! ## Auxiliary definitions for the verification

`parenOk` characterises the strings on which the parenthesis phase of
`clean_title` is the identity; the `_claimed` definitions restate claims C3
and C4 in the spec's words, to be compared with the functions embedded from
the source; `clean_artist_amended` restates the amended claim C3. -/

/-- Predicate mirroring `removeParens`: every parenthesis match present in the
string is a kept (keyword) span, so `removeParens` leaves the string unchanged. -/
def parenOk : List Char → Bool
  | [] => true
  | c :: rest =>
    if c = '(' ∧ ')' ∈ rest then
      kwSpan ('(' :: rest.takeWhile (· ≠ ')') ++ [')']) &&
        parenOk ((rest.dropWhile (· ≠ ')')).drop 1)
    else parenOk rest
termination_by l => l.length
decreasing_by
  all_goals simp only [List.length_cons]
  all_goals first
    | exact Nat.lt_succ_of_le (dropWhileDropLe _ _ _)
    | exact Nat.lt_succ_of_le (length_dropWhile_le _ _)
    | omega

/-- Claim C3 as written: after bracket removal, the split point is the first
character that is a `-` **or** a `|` (whichever occurs first), and only the
text strictly after that separator is kept, then trimmed. -/
def clean_artist_claimed (input : List Char) : List Char :=
  let t := removeBrackets input
  if (t.findIdx? (fun c => c = '-' ∨ c = '|')).isSome then
    rustTrim ((t.dropWhile (fun c => ¬ (c = '-' ∨ c = '|'))).drop 1)
  else rustTrim t

/-- Amended claim C3: the first `-` takes priority over any `|`; only if no `-`
occurs is the first `|` used; the kept text starts **at** the separator
character (it is not discarded); finally trimmed. -/
def clean_artist_amended (input : List Char) : List Char :=
  let t := rustTrim (removeBrackets input)
  if '-' ∈ t then rustTrim (t.dropWhile (· ≠ '-'))
  else if '|' ∈ t then rustTrim (t.dropWhile (· ≠ '|'))
  else rustTrim t

/-- Claim C4 as written: with a `" - "` separator present, the title is the
cleaned **entirety** of the text after the first separator. -/
def ingestSplit_claimed (raw_title upload_channel : List Char) : List Char × List Char :=
  if ¬ (containsSub sepDash raw_title = true) then
    (clean_artist (stripTopic upload_channel), clean_title raw_title)
  else
    (clean_artist (beforeFirst sepDash raw_title),
     clean_title (afterFirst sepDash raw_title))


/-! ## Lemmas for claims C3 and C4 -/

theorem dropWhileExt (p q : Char → Bool) (h : ∀ c, p c = q c) :
    ∀ l : List Char, l.dropWhile p = l.dropWhile q := by
  intro l
  induction l with
  | nil => rfl
  | cons c cs ih =>
    simp only [List.dropWhile_cons, h c, ih]

theorem drop_of_findIdx?_eq (p : Char → Bool) (t : List Char) (i : Nat)
    (h : t.findIdx? p = some i) :
    t.drop i = t.dropWhile (fun c => !(p c)) := by
  obtain ⟨-, hidx⟩ := List.findIdx?_eq_some_iff_findIdx_eq.mp h
  rw [List.dropWhile_eq_drop_findIdx_not, ← hidx]
  have hf : (fun a => !!(p a)) = p := funext fun a => Bool.not_not _
  rw [hf]

theorem findIdx?_isSome_of_mem {c : Char} {l : List Char} (h : c ∈ l) :
    (l.findIdx? (fun x => decide (x = c))).isSome := by
  rw [List.findIdx?_isSome]
  rw [List.any_eq_true]
  exact ⟨c, h, by simp⟩

theorem artistCore (t : List Char) :
    (match (t.findIdx? (fun c => decide (c = '-'))).orElse
        (fun _ => t.findIdx? (fun c => decide (c = '|'))) with
     | some i => t.drop i
     | none => t) =
    (if '-' ∈ t then t.dropWhile (· ≠ '-')
     else if '|' ∈ t then t.dropWhile (· ≠ '|')
     else t) := by
  by_cases hd : '-' ∈ t
  · obtain ⟨i, hi⟩ := Option.isSome_iff_exists.mp (findIdx?_isSome_of_mem hd)
    rw [hi, if_pos hd]
    show t.drop i = t.dropWhile (· ≠ '-')
    rw [drop_of_findIdx?_eq _ t i hi]
    exact dropWhileExt _ _ (fun c => by simp [decide_not]) t
  · have h1 : t.findIdx? (fun c => decide (c = '-')) = none := by
      rw [List.findIdx?_eq_none_iff]
      intro x hx
      simp only [decide_eq_false_iff_not]
      exact fun hh => hd (hh ▸ hx)
    rw [h1, if_neg hd]
    by_cases hp : '|' ∈ t
    · obtain ⟨j, hj⟩ := Option.isSome_iff_exists.mp (findIdx?_isSome_of_mem hp)
      rw [hj, if_pos hp]
      show t.drop j = t.dropWhile (· ≠ '|')
      rw [drop_of_findIdx?_eq _ t j hj]
      exact dropWhileExt _ _ (fun c => by simp [decide_not]) t
    · have h2 : t.findIdx? (fun c => decide (c = '|')) = none := by
        rw [List.findIdx?_eq_none_iff]
        intro x hx
        simp only [decide_eq_false_iff_not]
        exact fun hh => hp (hh ▸ hx)
      rw [h2, if_neg hp]
      rfl

theorem beforeFirst_of_not_contains {pat l : List Char}
    (h : containsSub pat l = false) : beforeFirst pat l = l := by
  induction l with
  | nil => rfl
  | cons c cs ih =>
    simp only [containsSub, Bool.or_eq_false_iff] at h
    simp [beforeFirst, h.1, ih h.2]

/-! ## Lemmas for claim C6 (title-cleaning idempotence) -/

/-! Span decomposition -/

theorem spanDecomp {rest : List Char} (h : ')' ∈ rest) :
    rest = rest.takeWhile (· ≠ ')') ++ ')' :: (rest.dropWhile (· ≠ ')')).drop 1 := by
  induction rest with
  | nil => simp at h
  | cons c cs ih =>
    by_cases hc : c = ')'
    · subst hc
      simp [List.takeWhile_cons, List.dropWhile_cons]
    · have hmem : ')' ∈ cs := by
        rcases List.mem_cons.mp h with h1 | h1
        · exact absurd h1.symm hc
        · exact h1
      have hcb : (decide (c ≠ ')')) = true := by simp [hc]
      simp only [List.takeWhile_cons, List.dropWhile_cons, hcb, if_true]
      rw [List.cons_append]
      exact congrArg (c :: ·) (ih hmem)

theorem takeWhile_no_rparen {rest : List Char} :
    ')' ∉ rest.takeWhile (· ≠ ')') := by
  intro hmem
  have := List.mem_takeWhile_imp hmem
  simp at this

/-! Sublist lemmas -/

theorem removeBrackets_sublist (l : List Char) : removeBrackets l <+ l := by
  induction l using removeBrackets.induct with
  | case1 => simp [removeBrackets]
  | case2 c rest h ih =>
    rw [removeBrackets, if_pos h]
    refine ih.trans ?_
    exact ((List.drop_sublist 1 _).trans (List.dropWhile_sublist _)).trans
      (List.sublist_cons_self c rest)
  | case3 c rest h ih =>
    rw [removeBrackets, if_neg h]
    exact ih.cons₂ c

theorem removeParens_sublist (l : List Char) : removeParens l <+ l := by
  induction l using removeParens.induct with
  | case1 => simp [removeParens]
  | case2 c rest h hkw ih =>
    rw [removeParens, if_pos h]
    simp only [hkw, if_pos]
    have hdec := spanDecomp h.2
    calc ('(' :: rest.takeWhile (· ≠ ')') ++ [')'])
            ++ removeParens ((rest.dropWhile (· ≠ ')')).drop 1)
        <+ ('(' :: rest.takeWhile (· ≠ ')') ++ [')'])
            ++ (rest.dropWhile (· ≠ ')')).drop 1 :=
          (List.append_sublist_append_left _).mpr ih
      _ = c :: rest := by
          rw [h.1]
          conv_rhs => rw [hdec]
          simp
  | case3 c rest h hkw ih =>
    rw [removeParens, if_pos h]
    simp only [hkw, if_neg, Bool.false_eq_true, if_false]
    refine ih.trans ?_
    exact ((List.drop_sublist 1 _).trans (List.dropWhile_sublist _)).trans
      (List.sublist_cons_self c rest)
  | case4 c rest h ih =>
    rw [removeParens, if_neg h]
    exact ih.cons₂ c

theorem removePipes_sublist (l : List Char) : removePipes l <+ l := by
  induction l using removePipes.induct with
  | case1 => simp [removePipes]
  | case2 rest ih =>
    rw [removePipes, if_pos rfl]
    refine ih.trans ?_
    exact (List.dropWhile_sublist _).trans (List.sublist_cons_self '|' rest)
  | case3 c rest h ih =>
    rw [removePipes, if_neg h]
    exact ih.cons₂ c

theorem removeQuotes_sublist (l : List Char) : removeQuotes l <+ l :=
  List.filter_sublist l

theorem rustTrim_sublist (l : List Char) : rustTrim l <+ l := by
  unfold rustTrim dropTrailingWs
  refine List.Sublist.trans ?_ (List.dropWhile_sublist wsChar)
  have h1 : (l.dropWhile wsChar).reverse.dropWhile wsChar <+ (l.dropWhile wsChar).reverse :=
    List.dropWhile_sublist _
  have := h1.reverse
  simpa using this

/-! Bracket phase -/

theorem noBrkPair_removeBrackets (l : List Char) :
    ¬ (['[', ']'] <+ removeBrackets l) := by
  induction l using removeBrackets.induct with
  | case1 => simp [removeBrackets]
  | case2 c rest h ih =>
    rw [removeBrackets, if_pos h]
    exact ih
  | case3 c rest h ih =>
    rw [removeBrackets, if_neg h]
    intro hsub
    rcases List.sublist_cons_iff.mp hsub with hsub | ⟨r, hr, hrsub⟩
    · exact ih hsub
    · have hc : c = '[' := by injection hr with h1 _; exact h1.symm
      have hrr : r = [']'] := by injection hr with _ h2; exact h2.symm
      subst hrr
      have hmem : ']' ∈ removeBrackets rest := List.singleton_sublist.mp hrsub
      have : ']' ∈ rest := (removeBrackets_sublist rest).subset hmem
      exact h ⟨hc, this⟩

theorem removeBrackets_id {l : List Char} (h : ¬ (['[', ']'] <+ l)) :
    removeBrackets l = l := by
  induction l using removeBrackets.induct with
  | case1 => rw [removeBrackets]
  | case2 c rest hc ih =>
    exfalso
    apply h
    rw [hc.1]
    exact (List.singleton_sublist.mpr hc.2).cons₂ '['
  | case3 c rest hc ih =>
    rw [removeBrackets, if_neg hc]
    rw [ih (fun hsub => h (hsub.cons c))]

/-! Pipe phase -/

theorem removePipes_eq_takeWhile {l : List Char} (h : '\n' ∉ l) :
    removePipes l = l.takeWhile (· ≠ '|') := by
  induction l using removePipes.induct with
  | case1 => rw [removePipes]; rfl
  | case2 rest ih =>
    rw [removePipes, if_pos rfl]
    have hrest : '\n' ∉ rest := fun hm => h (List.mem_cons_of_mem _ hm)
    have hdw : rest.dropWhile (· ≠ '\n') = [] := by
      rw [List.dropWhile_eq_nil_iff]
      intro x hx
      exact decide_eq_true (fun hq => hrest (hq ▸ hx))
    rw [hdw, removePipes]
    rw [List.takeWhile_cons]
    simp
  | case3 c rest hc ih =>
    rw [removePipes, if_neg hc]
    have hrest : '\n' ∉ rest := fun hm => h (List.mem_cons_of_mem _ hm)
    have hcb : (decide (c ≠ '|')) = true := by simp [hc]
    rw [List.takeWhile_cons, hcb, if_pos rfl]
    rw [ih hrest]

theorem removePipes_id {l : List Char} (h : '|' ∉ l) : removePipes l = l := by
  induction l using removePipes.induct with
  | case1 => rw [removePipes]
  | case2 rest ih => exact absurd (List.mem_cons_self '|' rest) h
  | case3 c rest hc ih =>
    rw [removePipes, if_neg hc]
    rw [ih (fun hm => h (List.mem_cons_of_mem _ hm))]

theorem no_pipe_takeWhile (l : List Char) : '|' ∉ l.takeWhile (· ≠ '|') := by
  intro hmem
  have := List.mem_takeWhile_imp hmem
  simp at this

/-! Quote phase -/

theorem removeQuotes_id {l : List Char} (h : '"' ∉ l) : removeQuotes l = l := by
  unfold removeQuotes
  rw [List.filter_eq_self]
  intro a ha
  exact decide_eq_true (fun hq => h (hq ▸ ha))

theorem no_quote_removeQuotes (l : List Char) : '"' ∉ removeQuotes l := by
  intro hmem
  unfold removeQuotes at hmem
  have := List.of_mem_filter hmem
  simp at this

/-! Trim -/

theorem dropWhile_head_not {p : Char → Bool} {l : List Char}
    (h : l.dropWhile p ≠ []) : p ((l.dropWhile p).headI) = false := by
  induction l with
  | nil => simp [List.dropWhile] at h
  | cons c cs ih =>
    by_cases hp : p c = true
    · rw [List.dropWhile_cons, if_pos hp] at h ⊢
      exact ih h
    · rw [List.dropWhile_cons, if_neg hp] at h ⊢
      simp only [List.headI]
      exact Bool.not_eq_true _ ▸ hp

theorem dropWhile_idem (p : Char → Bool) (l : List Char) :
    (l.dropWhile p).dropWhile p = l.dropWhile p := by
  by_cases h : l.dropWhile p = []
  · rw [h]; rfl
  · obtain ⟨c, cs, hc⟩ := List.exists_cons_of_ne_nil h
    have := dropWhile_head_not h
    rw [hc] at this ⊢
    simp only [List.headI] at this
    rw [List.dropWhile_cons, this]
    simp

theorem dropTrailingWs_idem (x : List Char) :
    dropTrailingWs (dropTrailingWs x) = dropTrailingWs x := by
  unfold dropTrailingWs
  rw [List.reverse_reverse, dropWhile_idem]

theorem dropTrailingWs_isPre (x : List Char) : dropTrailingWs x <+: x := by
  unfold dropTrailingWs
  have h1 : (x.reverse.dropWhile wsChar) <:+ x.reverse := List.dropWhile_suffix _
  have h2 := List.reverse_prefix.mpr h1
  rwa [List.reverse_reverse] at h2

theorem dropTrailingWs_decomp (x : List Char) :
    ∃ w, x = dropTrailingWs x ++ w ∧ ∀ c ∈ w, wsChar c = true := by
  refine ⟨(x.reverse.takeWhile wsChar).reverse, ?_, ?_⟩
  · unfold dropTrailingWs
    conv_lhs => rw [← List.reverse_reverse x]
    conv_lhs => rw [← List.takeWhile_append_dropWhile (p := wsChar) (l := x.reverse)]
    rw [List.reverse_append]
  · intro c hc
    rw [List.mem_reverse] at hc
    exact List.mem_takeWhile_imp hc

theorem dropWhile_of_dropTrailing (l : List Char) :
    (dropTrailingWs (l.dropWhile wsChar)).dropWhile wsChar
      = dropTrailingWs (l.dropWhile wsChar) := by
  set x := l.dropWhile wsChar with hx
  by_cases h : dropTrailingWs x = []
  · rw [h]; rfl
  · obtain ⟨c, t, hct⟩ := List.exists_cons_of_ne_nil h
    obtain ⟨s, hs⟩ := dropTrailingWs_isPre x
    have hxne : x ≠ [] := by
      intro hnil
      rw [← hs, hct] at hnil
      simp at hnil
    have hhead : wsChar (x.headI) = false := dropWhile_head_not (hx ▸ hxne)
    have hxhead : x.headI = c := by
      rw [← hs, hct]
      rfl
    have hwc : wsChar c = false := by rw [← hxhead]; exact hhead
    rw [hct, List.dropWhile_cons, hwc]
    simp

theorem rustTrim_idem (l : List Char) : rustTrim (rustTrim l) = rustTrim l := by
  show dropTrailingWs ((dropTrailingWs (l.dropWhile wsChar)).dropWhile wsChar)
      = dropTrailingWs (l.dropWhile wsChar)
  rw [dropWhile_of_dropTrailing, dropTrailingWs_idem]


/-! Paren phase -/

theorem twSpan {content : List Char} (t : List Char) (h : ')' ∉ content) :
    (content ++ ')' :: t).takeWhile (· ≠ ')') = content := by
  induction content with
  | nil => simp [List.takeWhile_cons]
  | cons c cs ih =>
    have hc : c ≠ ')' := fun hq => h (hq ▸ List.mem_cons_self c cs)
    have hcs : ')' ∉ cs := fun hm => h (List.mem_cons_of_mem _ hm)
    rw [List.cons_append, List.takeWhile_cons]
    rw [if_pos (by simp [hc])]
    rw [ih hcs]

theorem dwSpan {content : List Char} (t : List Char) (h : ')' ∉ content) :
    (content ++ ')' :: t).dropWhile (· ≠ ')') = ')' :: t := by
  induction content with
  | nil => simp [List.dropWhile_cons]
  | cons c cs ih =>
    have hc : c ≠ ')' := fun hq => h (hq ▸ List.mem_cons_self c cs)
    have hcs : ')' ∉ cs := fun hm => h (List.mem_cons_of_mem _ hm)
    rw [List.cons_append, List.dropWhile_cons]
    rw [if_pos (by simp [hc])]
    exact ih hcs

theorem noRParen_parenOk {l : List Char} (h : ')' ∉ l) : parenOk l = true := by
  induction l with
  | nil => rw [parenOk]
  | cons c cs ih =>
    have hcs : ')' ∉ cs := fun hm => h (List.mem_cons_of_mem _ hm)
    rw [parenOk]
    rw [if_neg (fun hc => hcs hc.2)]
    exact ih hcs

theorem noLParen_parenOk {l : List Char} (h : '(' ∉ l) : parenOk l = true := by
  induction l with
  | nil => rw [parenOk]
  | cons c cs ih =>
    have hc : c ≠ '(' := fun hq => h (hq ▸ List.mem_cons_self c cs)
    have hcs : '(' ∉ cs := fun hm => h (List.mem_cons_of_mem _ hm)
    rw [parenOk]
    rw [if_neg (fun hh => hc hh.1)]
    exact ih hcs

theorem parenOk_id {l : List Char} (h : parenOk l = true) : removeParens l = l := by
  induction l using removeParens.induct with
  | case1 => rw [removeParens]
  | case2 c rest hc hkw ih =>
    rw [removeParens, if_pos hc, if_pos hkw]
    rw [parenOk, if_pos hc, Bool.and_eq_true] at h
    rw [ih h.2]
    rw [hc.1]
    conv_rhs => rw [spanDecomp hc.2]
    simp
  | case3 c rest hc hkw ih =>
    exfalso
    rw [parenOk, if_pos hc, Bool.and_eq_true] at h
    exact hkw h.1
  | case4 c rest hc ih =>
    rw [removeParens, if_neg hc]
    rw [parenOk, if_neg hc] at h
    rw [ih h]

theorem prefixAppendCases :
    ∀ {a : List Char} {p b : List Char}, p <+: a ++ b →
      p <+: a ∨ ∃ s, p = a ++ s ∧ s <+: b := by
  intro a
  induction a with
  | nil =>
    intro p b h
    exact Or.inr ⟨p, rfl, h⟩
  | cons x xs ih =>
    intro p b h
    rw [List.cons_append] at h
    rcases List.prefix_cons_iff.mp h with rfl | ⟨t, rfl, ht⟩
    · exact Or.inl (List.nil_prefix)
    · rcases ih ht with h1 | ⟨s, rfl, hs⟩
      · exact Or.inl (List.cons_prefix_cons.mpr ⟨rfl, h1⟩)
      · exact Or.inr ⟨s, by simp, hs⟩

theorem singletonPrefixCases {s : List Char} {c : Char} (h : s <+: [c]) :
    s = [] ∨ s = [c] := by
  rcases List.prefix_cons_iff.mp h with rfl | ⟨t, rfl, ht⟩
  · exact Or.inl rfl
  · rw [List.prefix_nil] at ht
    exact Or.inr (by rw [ht])

theorem parenOk_of_prefix : ∀ (l p : List Char), p <+: removeParens l → parenOk p = true := by
  intro l
  induction l using removeParens.induct with
  | case1 =>
    intro p hp
    rw [removeParens] at hp
    rw [List.prefix_nil] at hp
    rw [hp, parenOk]
  | case2 c rest hc hkw ih =>
    intro p hp
    rw [removeParens, if_pos hc, if_pos hkw] at hp
    have hnoR : ')' ∉ rest.takeWhile (· ≠ ')') := takeWhile_no_rparen
    rw [List.cons_append] at hp
    rcases List.prefix_cons_iff.mp hp with rfl | ⟨q, rfl, hq⟩
    · rw [parenOk]
    · -- q <+: (takeWhile ++ [')']) ++ removeParens rest'
      simp only [List.append_eq] at hq
      rw [List.append_assoc] at hq
      rcases prefixAppendCases hq with h1 | ⟨s, rfl, hs⟩
      · -- q <+: content: no ')' in q
        have hq' : ')' ∉ q := fun hm => hnoR (h1.sublist.subset hm)
        rw [parenOk, if_neg (fun hh => hq' hh.2)]
        exact noRParen_parenOk hq'
      · -- q = content ++ s with s <+: [')'] ++ removeParens rest'
        rcases prefixAppendCases hs with h1 | ⟨s2, rfl, hs2⟩
        · rcases singletonPrefixCases h1 with rfl | rfl
          · rw [List.append_nil]
            rw [parenOk]
            rw [if_neg (fun hh => hnoR hh.2)]
            exact noRParen_parenOk hnoR
          · -- full span: '(' :: content ++ [')']
            rw [parenOk]
            rw [if_pos ⟨rfl, by simp⟩]
            rw [twSpan [] hnoR, dwSpan [] hnoR]
            simp only [List.drop_succ_cons, List.drop_nil]
            rw [Bool.and_eq_true]
            exact ⟨hkw, by rw [parenOk]⟩
        · -- span ++ s2 with s2 prefix of removeParens rest'
          rw [parenOk]
          rw [if_pos ⟨rfl, by simp⟩]
          simp only [List.singleton_append]
          rw [twSpan s2 hnoR, dwSpan s2 hnoR]
          simp only [List.drop_succ_cons, List.drop_nil]
          rw [Bool.and_eq_true]
          exact ⟨hkw, ih s2 hs2⟩
  | case3 c rest hc hkw ih =>
    intro p hp
    rw [removeParens, if_pos hc, if_neg hkw] at hp
    exact ih p hp
  | case4 c rest hc ih =>
    intro p hp
    rw [removeParens, if_neg hc] at hp
    rcases List.prefix_cons_iff.mp hp with rfl | ⟨q, rfl, hq⟩
    · rw [parenOk]
    · rw [parenOk]
      by_cases hcq : c = '(' ∧ ')' ∈ q
      · exfalso
        have h1 : ')' ∈ removeParens rest := hq.sublist.subset hcq.2
        have h2 : ')' ∈ rest := (removeParens_sublist rest).subset h1
        exact hc ⟨hcq.1, h2⟩
      · rw [if_neg hcq]
        exact ih q hq

/-! containsSub as infix -/

theorem isPreList_iff {pat : List Char} :
    ∀ {l : List Char}, isPreList pat l = true ↔ pat <+: l := by
  induction pat with
  | nil =>
    intro l
    simp [isPreList, List.nil_prefix]
  | cons p ps ih =>
    intro l
    cases l with
    | nil =>
      simp [isPreList]
    | cons c cs =>
      rw [isPreList, Bool.and_eq_true, List.cons_prefix_cons]
      rw [decide_eq_true_eq]
      exact and_congr Iff.rfl ih

theorem containsSub_iff {pat : List Char} :
    ∀ {l : List Char}, containsSub pat l = true ↔ ∃ u v, l = u ++ pat ++ v := by
  intro l
  induction l with
  | nil =>
    rw [containsSub, isPreList_iff]
    constructor
    · intro h
      exact ⟨[], [], by simpa using (List.prefix_nil.mp h).symm⟩
    · rintro ⟨u, v, huv⟩
      have hu : u = [] ∧ pat = [] ∧ v = [] := by simpa using huv.symm
      rw [hu.2.1]
  | cons c cs ih =>
    rw [containsSub, Bool.or_eq_true, isPreList_iff]
    constructor
    · rintro (h | h)
      · obtain ⟨v, hv⟩ := h
        exact ⟨[], v, by simp [hv.symm]⟩
      · obtain ⟨u, v, huv⟩ := ih.mp h
        exact ⟨c :: u, v, by simp [huv]⟩
    · rintro ⟨u, v, huv⟩
      cases u with
      | nil =>
        left
        exact ⟨v, by simpa using huv.symm⟩
      | cons x u2 =>
        right
        apply ih.mpr
        refine ⟨u2, v, ?_⟩
        have := List.cons_eq_cons.mp (by simpa using huv)
        rw [← List.append_assoc] at this
        exact this.2

/-! keyword preservation under quote removal -/

theorem kwFilterQuotes {kw s : List Char} (hkw : '"' ∉ kw)
    (h : containsSub kw (s.map charLower) = true) :
    containsSub kw ((removeQuotes s).map charLower) = true := by
  obtain ⟨u, v, huv⟩ := containsSub_iff.mp h
  rw [List.append_assoc] at huv
  obtain ⟨l1, l2, hs, hl1, hl2⟩ := List.map_eq_append_iff.mp huv
  obtain ⟨l3, l4, hs2, hl3, hl4⟩ := List.map_eq_append_iff.mp hl2
  have hq3 : '"' ∉ l3 := by
    intro hm
    apply hkw
    rw [← hl3]
    have : charLower '"' = '"' := by decide
    rw [← this]
    exact List.mem_map_of_mem charLower hm
  apply containsSub_iff.mpr
  refine ⟨(removeQuotes l1).map charLower, (removeQuotes l4).map charLower, ?_⟩
  rw [hs, hs2]
  unfold removeQuotes
  rw [List.filter_append, List.filter_append]
  rw [List.map_append, List.map_append]
  rw [show List.filter (fun c => decide (c ≠ '"')) l3 = l3 from removeQuotes_id hq3]
  rw [hl3, List.append_assoc]

theorem kwSpan_removeQuotes {s : List Char} (h : kwSpan s = true) :
    kwSpan (removeQuotes s) = true := by
  unfold kwSpan at h ⊢
  simp only [Bool.or_eq_true] at h ⊢
  rcases h with (h | h) | h
  · exact Or.inl (Or.inl (kwFilterQuotes (by decide) h))
  · exact Or.inl (Or.inr (kwFilterQuotes (by decide) h))
  · exact Or.inr (kwFilterQuotes (by decide) h)

/-! parenOk preservation -/

theorem parenOk_span_eq {C R : List Char} (hC : ')' ∉ C) :
    parenOk ('(' :: (C ++ ')' :: R)) =
      (kwSpan ('(' :: C ++ [')']) && parenOk R) := by
  rw [parenOk]
  rw [if_pos ⟨rfl, by simp⟩]
  rw [twSpan R hC, dwSpan R hC]
  simp only [List.drop_succ_cons, List.drop_nil, List.drop_zero]

theorem filter_no_mem {c : Char} {l : List Char} (h : c ∉ l) (p : Char → Bool) :
    c ∉ l.filter p := fun hm => h (List.mem_of_mem_filter hm)

theorem parenOk_removeQuotes {l : List Char} (h : parenOk l = true) :
    parenOk (removeQuotes l) = true := by
  induction l using parenOk.induct with
  | case1 =>
    have h0 : removeQuotes [] = ([] : List Char) := rfl
    rw [h0, parenOk]
  | case2 c rest hc ih =>
    rw [parenOk, if_pos hc, Bool.and_eq_true] at h
    obtain ⟨hkw, hok⟩ := h
    have hC : ')' ∉ rest.takeWhile (· ≠ ')') := takeWhile_no_rparen
    have hdec := spanDecomp hc.2
    rw [hc.1]
    conv_lhs => rw [hdec]
    unfold removeQuotes
    rw [List.filter_cons]
    rw [if_pos (by decide)]
    rw [List.filter_append, List.filter_cons]
    rw [if_pos (by decide)]
    have hQC : ')' ∉ (rest.takeWhile (· ≠ ')')).filter (· ≠ '"') :=
      filter_no_mem hC _
    rw [parenOk_span_eq hQC]
    rw [Bool.and_eq_true]
    constructor
    · have hsp : removeQuotes ('(' :: rest.takeWhile (· ≠ ')') ++ [')'])
          = '(' :: (rest.takeWhile (· ≠ ')')).filter (· ≠ '"') ++ [')'] := by
        unfold removeQuotes
        rw [List.filter_append, List.filter_cons, if_pos (by decide)]
        rw [show List.filter (fun c => decide (c ≠ '"')) [')'] = [')'] from by decide]
      rw [← hsp]
      exact kwSpan_removeQuotes hkw
    · exact ih hok
  | case3 c rest hc ih =>
    rw [parenOk, if_neg hc] at h
    unfold removeQuotes
    rw [List.filter_cons]
    by_cases hq : c = '"'
    · rw [if_neg (by simp [hq])]
      exact ih h
    · rw [if_pos (by simp [hq])]
      rw [parenOk]
      rw [if_neg ?hcond]
      · exact ih h
      case hcond =>
        rintro ⟨h1, h2⟩
        have : ')' ∈ rest := List.mem_of_mem_filter h2
        exact hc ⟨h1, this⟩

theorem wsNotParen {c : Char} (h : wsChar c = true) : c ≠ '(' ∧ c ≠ ')' := by
  unfold wsChar at h
  simp only [Bool.or_eq_true, decide_eq_true_eq] at h
  rcases h with ((h | h) | h) | h <;> subst h <;> exact ⟨by decide, by decide⟩

theorem parenOk_dropWhile_ws {l : List Char} (h : parenOk l = true) :
    parenOk (l.dropWhile wsChar) = true := by
  induction l with
  | nil => exact h
  | cons c cs ih =>
    rw [List.dropWhile_cons]
    by_cases hw : wsChar c = true
    · rw [if_pos hw]
      apply ih
      rw [parenOk, if_neg (fun hh => (wsNotParen hw).1 hh.1)] at h
      exact h
    · rw [if_neg hw]
      exact h

theorem parenOk_append_nonparen {w : List Char}
    (hw : ∀ c ∈ w, c ≠ '(' ∧ c ≠ ')') :
    ∀ (x : List Char), parenOk (x ++ w) = parenOk x := by
  intro x
  induction x using parenOk.induct with
  | case1 =>
    rw [List.nil_append, parenOk]
    have : '(' ∉ w := fun hm => (hw _ hm).1 rfl
    rw [noLParen_parenOk this]
  | case2 c rest hc ih =>
    have hC : ')' ∉ rest.takeWhile (· ≠ ')') := takeWhile_no_rparen
    have hdec := spanDecomp hc.2
    rw [hc.1]
    conv_lhs => rw [hdec]
    conv_rhs => rw [hdec]
    rw [List.cons_append, List.append_assoc, List.cons_append]
    rw [parenOk_span_eq hC, parenOk_span_eq hC]
    rw [ih]
  | case3 c rest hc ih =>
    rw [List.cons_append]
    rw [parenOk, parenOk, if_neg hc, if_neg ?hcond]
    · exact ih
    case hcond =>
      rintro ⟨h1, h2⟩
      rcases List.mem_append.mp h2 with h3 | h3
      · exact hc ⟨h1, h3⟩
      · exact (hw _ h3).2 rfl

theorem parenOk_dropTrailing {l : List Char} (h : parenOk l = true) :
    parenOk (dropTrailingWs l) = true := by
  obtain ⟨w, hw, hws⟩ := dropTrailingWs_decomp l
  have hnp : ∀ c ∈ w, c ≠ '(' ∧ c ≠ ')' := fun c hc => wsNotParen (hws c hc)
  rw [← parenOk_append_nonparen hnp]
  rw [← hw]
  exact h

theorem parenOk_rustTrim {l : List Char} (h : parenOk l = true) :
    parenOk (rustTrim l) = true :=
  parenOk_dropTrailing (parenOk_dropWhile_ws h)

/-! main idempotence theorem (amended C6) -/

theorem clean_title_idem {l : List Char} (h : '\n' ∉ l) :
    clean_title (clean_title l) = clean_title l := by
  have h1 : '\n' ∉ removeBrackets l :=
    fun hm => h ((removeBrackets_sublist l).subset hm)
  have h2 : '\n' ∉ removeParens (removeBrackets l) :=
    fun hm => h1 ((removeParens_sublist _).subset hm)
  have hLP : removePipes (removeParens (removeBrackets l))
      = (removeParens (removeBrackets l)).takeWhile (· ≠ '|') :=
    removePipes_eq_takeWhile h2
  have hvert : '|' ∉ removePipes (removeParens (removeBrackets l)) := by
    rw [hLP]; exact no_pipe_takeWhile _
  have hvertQ : '|' ∉ removeQuotes (removePipes (removeParens (removeBrackets l))) :=
    fun hm => hvert ((removeQuotes_sublist _).subset hm)
  have hvertO : '|' ∉ clean_title l :=
    fun hm => hvertQ ((rustTrim_sublist _).subset hm)
  have hqO : '"' ∉ clean_title l :=
    fun hm => no_quote_removeQuotes _ ((rustTrim_sublist _).subset hm)
  have hOsub : clean_title l <+ removeBrackets l :=
    (rustTrim_sublist _).trans ((removeQuotes_sublist _).trans
      ((removePipes_sublist _).trans (removeParens_sublist _)))
  have hbrO : ¬ (['[', ']'] <+ clean_title l) :=
    fun hs => noBrkPair_removeBrackets l (hs.trans hOsub)
  have pLP : parenOk (removePipes (removeParens (removeBrackets l))) = true := by
    rw [hLP]
    exact parenOk_of_prefix (removeBrackets l) _ (List.takeWhile_prefix _)
  have pO : parenOk (clean_title l) = true :=
    parenOk_rustTrim (parenOk_removeQuotes pLP)
  show rustTrim (removeQuotes (removePipes (removeParens (removeBrackets (clean_title l)))))
      = clean_title l
  rw [removeBrackets_id hbrO, parenOk_id pO, removePipes_id hvertO, removeQuotes_id hqO]
  exact rustTrim_idem _


/-! ## Lemmas for claim C5 -/

theorem reviewSong_fallback (fuel : Nat) (env : RevEnv) (s : Song) :
    reviewSong (fuel + 1) 1 env s = some (s, 1, env, 0) := by
  simp [reviewSong, reviewAct]

theorem reviewPass_fallback (fuel : Nat) (env : RevEnv) (songs : List Song)
    (hfuel : 0 < fuel) :
    reviewPass fuel 1 env songs = some (songs, 1, env, 0) := by
  induction songs with
  | nil => rfl
  | cons s rest ih =>
    obtain ⟨f, rfl⟩ : ∃ f, fuel = f + 1 := ⟨fuel - 1, by omega⟩
    simp only [reviewPass, reviewSong_fallback]
    rw [ih]


/-! ## Claim theorems -/

/-- C1: the claim says that when every candidate of a non-empty raw response is
dropped (null or unparseable release date), the resolver returns a normal
`NotFoundError`.  The code instead evaluates `results[0]` in its `info!` call
on the now-empty vector and panics: on a response holding one single candidate
whose release-date field is null, `get_music_braiz_results` panics instead of
returning the error. -/
theorem c1_empty_filtered_list_panics :
    get_music_braiz_results [⟨none, ["A".toList], "T".toList, none⟩] =
        MBOutcome.panicked ∧
    get_music_braiz_results [⟨none, ["A".toList], "T".toList, none⟩] ≠
        MBOutcome.errNotFound := by
  exact ⟨by decide, by decide⟩

/-- C2: the claim says each candidate's `canonical_title` ends with that
candidate's **own** recording title.  The code joins the candidate's artist
credit with `json["recordings"][0]["title"]` — the **first** candidate's title.
On a response with two candidates titled `T1` and `T2`, the candidate built
from the second recording (artist `B`, year 1990, own title `T2`) carries the
string `"B - T1"`, not `"B - T2"`. -/
theorem c2_canonical_title_uses_first_candidate_title :
    get_music_braiz_results
        [⟨some "2000".toList, ["A".toList], "T1".toList, none⟩,
         ⟨some "1990-05-01".toList, ["B".toList], "T2".toList, none⟩] =
      MBOutcome.ok
        [(1990, "B - T1".toList, none), (2000, "A - T1".toList, none)] ∧
    "B - T1".toList ≠ "B".toList ++ sepDash ++ "T2".toList := by
  exact ⟨by decide, by decide⟩

unseal removeBrackets in
/-- C3 counterexample: on `"a|b-c"` the claim predicts the split at the first
separator character (the `|`), keeping only the text strictly after it,
giving `"b-c"`; `clean_artist` instead finds the first `-` (because `find("-")`
is tried before `find("|")`) and keeps it, giving `"-c"`. -/
theorem c3_counterexample :
    clean_artist "a|b-c".toList = "-c".toList ∧
    clean_artist_claimed "a|b-c".toList = "b-c".toList ∧
    clean_artist "a|b-c".toList ≠ clean_artist_claimed "a|b-c".toList := by
  exact ⟨by decide, by decide, by decide⟩

/-- C3 amended: artist cleaning removes the bracketed spans and trims; then,
if a `-` occurs anywhere, the result keeps the text from the **first `-`**
onward (the separator character included); otherwise, if a `|` occurs, the
text from the first `|` onward; the result is finally trimmed. -/
theorem c3_amended_artist_split (input : List Char) :
    clean_artist input = clean_artist_amended input := by
  simp only [clean_artist, clean_artist_amended]
  refine (congrArg rustTrim (artistCore _)).trans ?_
  by_cases hd : '-' ∈ rustTrim (removeBrackets input)
  · rw [if_pos hd, if_pos hd]
  · rw [if_neg hd, if_neg hd]
    by_cases hp : '|' ∈ rustTrim (removeBrackets input)
    · rw [if_pos hp, if_pos hp]
    · rw [if_neg hp, if_neg hp]

unseal removeBrackets removeParens removePipes splitDash stripTopic in
/-- C4 counterexample: on `"A - B - C"` the claim predicts the title to be the
cleaned entirety after the first separator, `"B - C"`; the code takes
`split(" - ")` element `[1]`, the segment `"B"` strictly between the first and
the second separator. -/
theorem c4_counterexample :
    (ingestSplit "A - B - C".toList "chan".toList).2 = "B".toList ∧
    (ingestSplit_claimed "A - B - C".toList "chan".toList).2 = "B - C".toList ∧
    ingestSplit "A - B - C".toList "chan".toList ≠
      ingestSplit_claimed "A - B - C".toList "chan".toList := by
  exact ⟨by decide, by decide, by decide⟩

/-- C4 amended: when the raw title contains `" - "`, the artist is the cleaned
text before the first occurrence, and the title is the cleaned segment
strictly **between the first and the second** occurrence (up to the end when
there is no second occurrence). -/
theorem c4_amended_title_between_separators (raw ch : List Char)
    (h : containsSub sepDash raw = true) :
    ingestSplit raw ch =
      (clean_artist (beforeFirst sepDash raw),
       clean_title (beforeFirst sepDash (afterFirst sepDash raw))) := by
  unfold ingestSplit
  rw [if_neg (by simp [h])]
  rw [splitDash.eq_def, if_pos h]
  simp only [List.getD_cons_zero, List.getD_cons_succ]
  by_cases h2 : containsSub sepDash (afterFirst sepDash raw) = true
  · rw [splitDash.eq_def, if_pos h2]
    simp only [List.getD_cons_zero]
  · rw [splitDash.eq_def, if_neg h2]
    simp only [List.getD_cons_zero]
    have h2x : containsSub sepDash (afterFirst sepDash raw) = false := by
      simpa using h2
    rw [@beforeFirst_of_not_contains sepDash (afterFirst sepDash raw) h2x]

unseal removeBrackets removeParens removePipes splitDash stripTopic in
/-- C4 witness at the counterexample's raw title. -/
theorem c4_amended_witness :
    containsSub sepDash "A - B - C".toList = true ∧
    ingestSplit "A - B - C".toList "x".toList =
      (clean_artist (beforeFirst sepDash "A - B - C".toList),
       clean_title (beforeFirst sepDash (afterFirst sepDash "A - B - C".toList))) :=
  ⟨by decide,
   c4_amended_title_between_separators "A - B - C".toList "x".toList (by decide)⟩

/-- C5: with `action_for_all` already set to `1` — the state after the user
picks menu action 4, "use YouTube upload date for all remaining" — the review
pass over any remaining queue shows no menu (the prompt count is `0`), reads
no input (the streams come back unchanged), leaves every entry exactly as
created, and every decided entry has `release_year` equal to its fallback
`youtube_year`. -/
theorem c5_always_fallback_pass (fuel : Nat) (env : RevEnv) (songs : List Song)
    (hfuel : 0 < fuel)
    (hinv : ∀ s ∈ songs, s.release_year = s.youtube_year) :
    ∃ out, reviewPass fuel 1 env songs = some (out, 1, env, 0) ∧
      ∀ s ∈ out, s.release_year = s.youtube_year :=
  ⟨songs, reviewPass_fallback fuel env songs hfuel, hinv⟩

/-- C5 witness on a one-entry queue. -/
theorem c5_witness :
    ∃ out, reviewPass 1 1 ⟨[], []⟩
        [⟨"a".toList, "t".toList, 2001, 2001, "i".toList, "r".toList, none⟩] =
          some (out, 1, ⟨[], []⟩, 0) ∧
      ∀ s ∈ out, s.release_year = s.youtube_year :=
  c5_always_fallback_pass 1 ⟨[], []⟩
    [⟨"a".toList, "t".toList, 2001, 2001, "i".toList, "r".toList, none⟩]
    (by decide) (by decide)

unseal removeBrackets removeParens removePipes in
/-- C6 counterexample: title cleaning is **not** idempotent on every string.
On `"(x|remix)\ny)"` the first pass keeps the parenthesised span (its keyword
`remix` sits after the `|`), then the pipe phase deletes `|remix` up to the
newline, leaving `"(x\ny)"`; a second pass now deletes that span entirely. -/
theorem c6_counterexample :
    clean_title (clean_title "(x|remix)\ny)".toList) ≠
      clean_title "(x|remix)\ny)".toList ∧
    clean_title "(x|remix)\ny)".toList = "(x\ny)".toList ∧
    clean_title "(x\ny)".toList = [] := by
  exact ⟨by decide, by decide, by decide⟩

/-- C6 amended: title cleaning is idempotent on every string that contains no
newline character; in particular an already-clean title coming from a
single-line raw title is returned unchanged. -/
theorem c6_clean_title_idem_no_newline {l : List Char} (h : '\n' ∉ l) :
    clean_title (clean_title l) = clean_title l :=
  clean_title_idem h

unseal removeBrackets removeParens removePipes in
/-- C6 witness on a single-line raw title exercising every phase. -/
theorem c6_witness :
    ('\n' ∉ "a [x] (edit) \"q\" | tail".toList) ∧
    clean_title (clean_title "a [x] (edit) \"q\" | tail".toList) =
      clean_title "a [x] (edit) \"q\" | tail".toList :=
  ⟨by decide, c6_clean_title_idem_no_newline (by decide)⟩

/-- C7: entering a row number outside `[1, min(pageSize, rowsOnThisPage)]` in
the catalog browser leaves the whole state — song list, page and page size —
unchanged and returns to redisplay the same page, consuming nothing. -/
theorem c7_out_of_range_row_noop (fuel : Nat) (env : BrowseEnv)
    (st : BrowseState) (num : Nat)
    (h : num > min (elementsDisplayed st) st.eps ∨ num < 1) :
    browseIter (fuel + 1) env st (.num num) = some (st, env) := by
  simp only [browseIter, selectLoop]
  rw [if_pos h]

/-- C7 witness: `0` and `pageSize + 1` on a three-song page of size 10. -/
theorem c7_witness :
    browseIter 1 ⟨[], [], []⟩
        ⟨[⟨"a".toList, "b".toList, 1, 1, "c".toList, "d".toList, none⟩,
          ⟨"e".toList, "f".toList, 2, 2, "g".toList, "h".toList, none⟩,
          ⟨"i".toList, "j".toList, 3, 3, "k".toList, "m".toList, none⟩], 0, 10⟩
        (.num 11) =
      some (⟨[⟨"a".toList, "b".toList, 1, 1, "c".toList, "d".toList, none⟩,
              ⟨"e".toList, "f".toList, 2, 2, "g".toList, "h".toList, none⟩,
              ⟨"i".toList, "j".toList, 3, 3, "k".toList, "m".toList, none⟩], 0, 10⟩,
            ⟨[], [], []⟩) :=
  c7_out_of_range_row_noop 0 ⟨[], [], []⟩ _ 11 (by decide)

/-- C8: a persisted line that does not split into exactly 7 unit-separator
fields is skipped and loading continues with the remaining lines — the load
result is exactly the result of loading the rest, so such a line can never
abort the load. -/
theorem c8_wrong_field_count_skipped (line : List Char) (rest : List (List Char))
    (h : (splitOnChar unitSep line).length ≠ 7) :
    loadSongs (line :: rest) = loadSongs rest := by
  show (if (splitOnChar unitSep line).length ≠ 7 then loadSongs rest else _) =
    loadSongs rest
  rw [if_pos h]

/-- C8 witness: a one-field line is skipped. -/
theorem c8_witness :
    (splitOnChar unitSep "abc".toList).length ≠ 7 ∧
    loadSongs ["abc".toList] = loadSongs [] :=
  ⟨by decide, c8_wrong_field_count_skipped "abc".toList [] (by decide)⟩

/-- C9: the loader is not total over well-formed 7-field lines: a line whose
seven fields are unit-separator delimited but whose release-year field
(`"19x9"`) is not a decimal integer makes `parse::<i32>().unwrap()` panic,
aborting the whole load instead of skipping the line. -/
theorem c9_seven_field_bad_year_aborts :
    (splitOnChar unitSep "a\x1fb\x1f19x9\x1f2000\x1fid\x1fraw\x1fNone".toList).length
        = 7 ∧
    loadSongs ["a\x1fb\x1f19x9\x1f2000\x1fid\x1fraw\x1fNone".toList] =
      Except.error "a\x1fb\x1f19x9\x1f2000\x1fid\x1fraw\x1fNone".toList := by
  exact ⟨by decide, by rfl⟩

/-- C10: every `Song` pushed onto the skipped queue is created with
`release_year` equal to its fallback `youtube_year` and with no detected
title; consequently review menu action `1` (accept the fallback year) decides
the entry with no field assignment — the song comes back unchanged after one
menu display — preserving `release_year = youtube_year`. -/
theorem c10_skipped_song_fallback_invariant (artist title : List Char) (u : Int)
    (id raw : List Char) (fuel : Nat) (ns : List Int)
    (cq : List (Option (Int × List Char))) :
    (mkSkippedSong artist title u id raw).release_year =
      (mkSkippedSong artist title u id raw).youtube_year ∧
    (mkSkippedSong artist title u id raw).detected_title = none ∧
    reviewSong (fuel + 1) (-1) ⟨1 :: ns, cq⟩ (mkSkippedSong artist title u id raw) =
      some (mkSkippedSong artist title u id raw, -1, ⟨ns, cq⟩, 1) := by
  refine ⟨rfl, rfl, ?_⟩
  simp [reviewSong, reviewAct, inputNum]

end Carnister
